import Mathlib

/-!
Verification of the domain reconciliation engine of
cloudflare-gateway-pihole-scripts against its specification.

JavaScript strings are modelled as `List Char`; JS `Set` membership is list
membership; the reconciliation loop of `processLists`
(src/update_filter_lists.js) is an explicit fold over the raw blocklist.
-/

namespace CGPS

abbrev Str := List Char

def strL (s : String) : Str := s.toList

/-- `hasPrefixL p l` is true when `p` is an initial segment of `l`
(the model of JS `String.prototype.startsWith` and of locating a
pattern occurrence at the head of a string). -/
def hasPrefixL : Str → Str → Bool
  | [], _ => true
  | _ :: _, [] => false
  | p :: ps, c :: cs => p == c && hasPrefixL ps cs

/-- JS `String.prototype.split(sep)` for a one-character separator:
always returns `count sep + 1` pieces, empty pieces included. -/
def splitCh (sep : Char) : List Char → List (List Char)
  | [] => [[]]
  | c :: cs =>
    if c = sep then [] :: splitCh sep cs
    else
      match splitCh sep cs with
      | [] => [[c]]
      | h :: t => (c :: h) :: t

/-- JS `Array.prototype.join(sep)` for a one-character separator. -/
def joinCh (sep : Char) : List (List Char) → List Char
  | [] => []
  | [p] => p
  | p :: q :: ps => p ++ sep :: joinCh sep (q :: ps)

theorem splitCh_ne_nil (sep : Char) (l : List Char) : splitCh sep l ≠ [] := by
  cases l with
  | nil => simp [splitCh]
  | cons c cs =>
    simp only [splitCh]
    split
    · simp
    · cases splitCh sep cs <;> simp

theorem length_splitCh (sep : Char) (l : List Char) :
    (splitCh sep l).length = l.count sep + 1 := by
  induction l with
  | nil => simp [splitCh]
  | cons c cs ih =>
    simp only [splitCh]
    split
    · rename_i h
      simp [List.count_cons, h, ih]
    · rename_i h
      have hne := splitCh_ne_nil sep cs
      cases hsp : splitCh sep cs with
      | nil => exact absurd hsp hne
      | cons x xs =>
        simp only [List.length_cons]
        rw [hsp] at ih
        simp only [List.length_cons] at ih
        have : c ≠ sep := fun hc => h hc
        simp [List.count_cons, this, ih]

theorem not_mem_of_mem_splitCh {sep : Char} {l : List Char} {p : List Char}
    (hp : p ∈ splitCh sep l) : sep ∉ p := by
  induction l generalizing p with
  | nil =>
    simp [splitCh] at hp
    simp [hp]
  | cons c cs ih =>
    simp only [splitCh] at hp
    split at hp
    · rcases List.mem_cons.mp hp with hp | hp
      · simp [hp]
      · exact ih hp
    · rename_i h
      have hne := splitCh_ne_nil sep cs
      cases hsp : splitCh sep cs with
      | nil => exact absurd hsp hne
      | cons x xs =>
        rw [hsp] at hp
        rcases List.mem_cons.mp hp with hp | hp
        · subst hp
          intro hmem
          rcases List.mem_cons.mp hmem with hmem | hmem
          · exact h hmem.symm
          · exact ih (by rw [hsp]; exact List.mem_cons_self x xs) hmem
        · exact ih (by rw [hsp]; exact List.mem_cons_of_mem x hp)

theorem mem_of_mem_splitCh {sep : Char} {l p : List Char} {c : Char}
    (hp : p ∈ splitCh sep l) (hc : c ∈ p) : c ∈ l := by
  induction l generalizing p with
  | nil =>
    simp [splitCh] at hp
    subst hp
    simp at hc
  | cons a as ih =>
    simp only [splitCh] at hp
    split at hp
    · rename_i h
      rcases List.mem_cons.mp hp with hp | hp
      · subst hp; simp at hc
      · exact List.mem_cons_of_mem a (ih hp hc)
    · have hne := splitCh_ne_nil sep as
      cases hsp : splitCh sep as with
      | nil => exact absurd hsp hne
      | cons x xs =>
        rw [hsp] at hp
        rcases List.mem_cons.mp hp with hp | hp
        · subst hp
          rcases List.mem_cons.mp hc with hc | hc
          · simp [hc]
          · exact List.mem_cons_of_mem a
              (ih (by rw [hsp]; exact List.mem_cons_self x xs) hc)
        · exact List.mem_cons_of_mem a
            (ih (by rw [hsp]; exact List.mem_cons_of_mem x hp) hc)

theorem mem_splitCh_decomp (sep : Char) {l : List Char} {c : Char}
    (hc : c ∈ l) : c = sep ∨ ∃ p ∈ splitCh sep l, c ∈ p := by
  induction l with
  | nil => simp at hc
  | cons a as ih =>
    simp only [splitCh]
    split
    · rename_i h
      subst h
      rcases List.mem_cons.mp hc with hc | hc
      · exact Or.inl hc
      · rcases ih hc with h1 | ⟨p, hp, hcp⟩
        · exact Or.inl h1
        · exact Or.inr ⟨p, List.mem_cons_of_mem _ hp, hcp⟩
    · rename_i h
      have hne := splitCh_ne_nil sep as
      cases hsp : splitCh sep as with
      | nil => exact absurd hsp hne
      | cons x xs =>
        rcases List.mem_cons.mp hc with hc | hc
        · exact Or.inr ⟨a :: x, List.mem_cons_self _ _, by simp [hc]⟩
        · rcases ih hc with h1 | ⟨p, hp, hcp⟩
          · exact Or.inl h1
          · rw [hsp] at hp
            rcases List.mem_cons.mp hp with hp | hp
            · exact Or.inr ⟨a :: x, List.mem_cons_self _ _,
                by subst hp; exact List.mem_cons_of_mem a hcp⟩
            · exact Or.inr ⟨p, List.mem_cons_of_mem _ hp, hcp⟩

theorem joinCh_splitCh (sep : Char) (l : List Char) :
    joinCh sep (splitCh sep l) = l := by
  induction l with
  | nil => simp [splitCh, joinCh]
  | cons c cs ih =>
    simp only [splitCh]
    split
    · rename_i h
      subst h
      have hne := splitCh_ne_nil c cs
      cases hsp : splitCh c cs with
      | nil => exact absurd hsp hne
      | cons x xs =>
        rw [hsp] at ih
        simp [joinCh, ih]
    · have hne := splitCh_ne_nil sep cs
      cases hsp : splitCh sep cs with
      | nil => exact absurd hsp hne
      | cons x xs =>
        rw [hsp] at ih
        cases xs with
        | nil => simpa [joinCh] using congrArg (c :: ·) ih
        | cons y ys => simpa [joinCh] using congrArg (c :: ·) ih

/-- `domain.split(".")` from src/lib/utils.js `extractDomain`. -/
def splitDot (s : Str) : List Str := splitCh '.' s

/-- `parts.join(".")`. -/
def joinDot (ps : List Str) : Str := joinCh '.' ps

/-- src/lib/utils.js `extractDomain`: for `i` in `0..parts.length-1`,
`unshift(parts.slice(i).join("."))`, i.e. all suffix domains of the input,
least specific first, the input itself last. -/
def extractDomain (domain : Str) : List Str :=
  let parts := splitDot domain
  ((List.range parts.length).map (fun i => joinDot (parts.drop i))).reverse

/-- Structural-recursion description of `extractDomain`, used for proofs. -/
def suffixList : List Str → List Str
  | [] => []
  | p :: ps => suffixList ps ++ [joinDot (p :: ps)]

theorem range_map_reverse_eq_suffixList (ps : List Str) :
    ((List.range ps.length).map (fun i => joinDot (ps.drop i))).reverse
      = suffixList ps := by
  induction ps with
  | nil => simp [suffixList]
  | cons p ps ih =>
    rw [List.length_cons, List.range_succ_eq_map]
    simp only [List.map_cons, List.map_map, List.reverse_cons, suffixList]
    have : ((List.range ps.length).map
        ((fun i => joinDot ((p :: ps).drop i)) ∘ Nat.succ))
        = (List.range ps.length).map (fun i => joinDot (ps.drop i)) := by
      apply List.map_congr_left
      intro i _
      simp [Function.comp, List.drop_succ_cons]
    rw [this, ih]
    simp [List.drop_zero]

theorem extractDomain_eq_suffixList (d : Str) :
    extractDomain d = suffixList (splitDot d) := by
  unfold extractDomain
  exact range_map_reverse_eq_suffixList (splitDot d)

theorem suffixList_ne_nil {p : Str} {ps : List Str} :
    suffixList (p :: ps) ≠ [] := by
  simp [suffixList]

theorem self_mem_extractDomain (d : Str) : d ∈ extractDomain d := by
  rw [extractDomain_eq_suffixList]
  have hne := splitCh_ne_nil '.' d
  cases hsp : splitDot d with
  | nil => exact absurd hsp hne
  | cons p ps =>
    have : joinDot (p :: ps) = d := by
      rw [← hsp]
      exact joinCh_splitCh '.' d
    rw [suffixList]
    rw [this]
    exact List.mem_append_right _ (List.mem_singleton.mpr rfl)

theorem getLast?_extractDomain (d : Str) :
    (extractDomain d).getLast? = some d := by
  rw [extractDomain_eq_suffixList]
  have hne := splitCh_ne_nil '.' d
  cases hsp : splitDot d with
  | nil => exact absurd hsp hne
  | cons p ps =>
    have hjoin : joinDot (p :: ps) = d := by
      rw [← hsp]
      exact joinCh_splitCh '.' d
    rw [suffixList, hjoin]
    exact List.getLast?_concat _

/-- Joining at least two dot-free pieces yields a string containing a dot. -/
theorem dot_mem_joinDot {ps : List Str} (h : 2 ≤ ps.length) :
    '.' ∈ joinDot ps := by
  match ps with
  | p :: q :: rest =>
    simp [joinDot, joinCh]

theorem dot_not_mem_joinDot_single {p : Str} (h : '.' ∉ p) :
    '.' ∉ joinDot [p] := by
  simpa [joinDot, joinCh] using h

/-- A member of `suffixList ps` containing a dot is not the head
(the head is the single last piece, which is dot-free). -/
theorem mem_drop_one_suffixList {a : Str} :
    ∀ {ps : List Str}, a ∈ suffixList ps → '.' ∈ a →
      (∀ p ∈ ps, '.' ∉ p) → a ∈ (suffixList ps).drop 1
  | [], ha, _, _ => by simp [suffixList] at ha
  | [p], ha, hdot, hfree => by
    have hap : a = p := by simpa [suffixList, joinDot, joinCh] using ha
    rw [hap] at hdot
    exact absurd hdot (hfree p (by simp))
  | p :: q :: ps, ha, hdot, hfree => by
    rw [suffixList] at ha ⊢
    have hne : suffixList (q :: ps) ≠ [] := suffixList_ne_nil
    rcases List.mem_append.mp ha with ha | ha
    · have hmem : a ∈ (suffixList (q :: ps)).drop 1 :=
        mem_drop_one_suffixList ha hdot
          (fun r hr => hfree r (List.mem_cons_of_mem p hr))
      cases hsf : suffixList (q :: ps) with
      | nil => exact absurd hsf hne
      | cons x xs =>
        rw [hsf] at hmem
        simp only [List.cons_append, List.drop_succ_cons, List.drop_zero] at *
        exact List.mem_append_left _ hmem
    · cases hsf : suffixList (q :: ps) with
      | nil => exact absurd hsf hne
      | cons x xs =>
        simp only [hsf, List.cons_append, List.drop_succ_cons, List.drop_zero]
        exact List.mem_append_right _ ha

/-- A member of `extractDomain d` that contains a dot survives the
code's `.slice(1)` (only the dot-free single-label suffix is dropped). -/
theorem mem_drop_one_extractDomain {a d : Str}
    (ha : a ∈ extractDomain d) (hdot : '.' ∈ a) :
    a ∈ (extractDomain d).drop 1 := by
  rw [extractDomain_eq_suffixList] at ha ⊢
  exact mem_drop_one_suffixList ha hdot
    (fun p hp => not_mem_of_mem_splitCh hp)

/-! ## Character classes, validation and comment detection (src/lib/utils.js) -/

/-- JS `\s` / the characters removed by `String.prototype.trim`. -/
def isWsChar (c : Char) : Bool :=
  c.toNat = 32 || c.toNat = 9 || c.toNat = 10 || c.toNat = 11 ||
  c.toNat = 12 || c.toNat = 13 || c.toNat = 160 || c.toNat = 5760 ||
  (8192 ≤ c.toNat && c.toNat ≤ 8202) || c.toNat = 8232 || c.toNat = 8233 ||
  c.toNat = 8239 || c.toNat = 8287 || c.toNat = 12288 || c.toNat = 65279

/-- `[a-z0-9]` of the `isValidDomain` regex. -/
def isAlphaNum (c : Char) : Bool :=
  (97 ≤ c.toNat && c.toNat ≤ 122) || (48 ≤ c.toNat && c.toNat ≤ 57)

/-- `[a-z]`. -/
def isLowerAlpha (c : Char) : Bool :=
  97 ≤ c.toNat && c.toNat ≤ 122

/-- `[a-z0-9]+(-[a-z0-9]+)*`: alphanumeric runs separated by single
hyphens, no leading/trailing/double hyphen. -/
def altLabel (l : Str) : Bool :=
  (splitCh '-' l).all (fun p => !p.isEmpty && p.all isAlphaNum)

/-- One inner label of the regex: `(xn--)?[a-z0-9]+(-[a-z0-9]+)*`,
with the lookahead's 1–63 length bound on the whole label. -/
def labelOk (l : Str) : Bool :=
  decide (l.length ≤ 63) &&
    (altLabel l || (hasPrefixL (strL "xn--") l && altLabel (l.drop 4)))

/-- The final label `[a-z]{2,63}`. -/
def finalLabelOk (l : Str) : Bool :=
  decide (2 ≤ l.length) && decide (l.length ≤ 63) && l.all isLowerAlpha

/-- src/lib/utils.js `isValidDomain`: the regex
`^\b((?=[a-z0-9-]{1,63}\.)(xn--)?[a-z0-9]+(-[a-z0-9]+)*\.)+[a-z]{2,63}\b$`
decomposed along the dots: at least one inner label followed by a
2–63-letter final label. -/
def isValidDomain (s : Str) : Bool :=
  let parts := splitDot s
  decide (2 ≤ parts.length) && finalLabelOk (parts.getLastD []) &&
    parts.dropLast.all labelOk

/-- src/lib/utils.js `isComment`. -/
def isComment (value : Str) : Bool :=
  hasPrefixL (strL "#") value || hasPrefixL (strL "//") value ||
  hasPrefixL (strL "!") value || hasPrefixL (strL "/*") value ||
  hasPrefixL (strL "*/") value

/-- JS `String.prototype.trim`. -/
def trimStr (l : Str) : Str :=
  ((l.dropWhile isWsChar).reverse.dropWhile isWsChar).reverse

/-! ## The domain normalizer (src/lib/helpers.js `normalizeDomain`)

JS `String.prototype.replace` with a string pattern replaces only the
first occurrence; with a `g`-less regex it replaces only the leftmost
match. -/

/-- `value.replace(pat, "")` for a literal string pattern: remove the
first (leftmost) occurrence of `pat`, if any. -/
def replaceFirst (pat : Str) : Str → Str
  | [] => []
  | c :: cs =>
    if hasPrefixL pat (c :: cs) then (c :: cs).drop pat.length
    else c :: replaceFirst pat cs

/-- One alternative of the regex `(0\.0\.0\.0|127\.0\.0\.1|::1|::)\s+`
tried at the current position: the literal followed by a maximal
nonempty whitespace run. Returns the match length. -/
def tryIpAlt (pat : Str) (l : Str) : Option Nat :=
  if hasPrefixL pat l then
    if ((l.drop pat.length).takeWhile isWsChar).length = 0 then none
    else some (pat.length + ((l.drop pat.length).takeWhile isWsChar).length)
  else none

/-- The regex alternatives in source order at the current position. -/
def matchIpAt (l : Str) : Option Nat :=
  match tryIpAlt (strL "0.0.0.0") l with
  | some n => some n
  | none =>
    match tryIpAlt (strL "127.0.0.1") l with
    | some n => some n
    | none =>
      match tryIpAlt (strL "::1") l with
      | some n => some n
      | none => tryIpAlt (strL "::") l

/-- `value.replace(/(0\.0\.0\.0|127\.0\.0\.1|::1|::)\s+/, "")`: remove
the leftmost match, scanning left to right. -/
def replaceIp : Str → Str
  | [] => []
  | c :: cs =>
    match matchIpAt (c :: cs) with
    | some n => (c :: cs).drop n
    | none => c :: replaceIp cs

/-- src/lib/helpers.js `normalizeDomain`: strips `@@||` (allowlist only),
a leading IP-plus-whitespace pattern, `||`, `^$important`, `*.` and `^`,
each replace removing only the first occurrence. Total: always returns a
string. -/
def normalizeDomain (value : Str) (isAllowlisting : Bool) : Str :=
  let init := if isAllowlisting then replaceFirst (strL "@@||") value else value
  replaceFirst (strL "^")
    (replaceFirst (strL "*.")
      (replaceFirst (strL "^$important")
        (replaceFirst (strL "||")
          (replaceIp init))))

/-! ## The reconciliation loop (src/update_filter_lists.js lines 110–152) -/

/-- The mutable loop state of `processLists`: the growing `blocklist`
set, the output `domains` array and the stats counters. -/
structure RState where
  blocklist : List Str
  domains : List Str
  processed : Nat
  allowed : Nat
  duplicates : Nat
deriving DecidableEq, Repr

def initState : RState := ⟨[], [], 0, 0, 0⟩

/-- src/lib/constants.js `LIST_ITEM_SIZE`. -/
def LIST_ITEM_SIZE : Int := 1000

/-- The inner `for (const item of extractDomain(domain).slice(1))` loop:
first item found in the allowlist yields `some true` (allowed), first
item found in the blocklist yields `some false` (duplicate), `none` if
no item matches. -/
def scanAncestors (allowlist blocklist : List Str) : List Str → Option Bool
  | [] => none
  | item :: rest =>
    if item ∈ allowlist then some true
    else if item ∈ blocklist then some false
    else scanAncestors allowlist blocklist rest

/-- One iteration of the `for (const domain of rawBlocklist)` loop of
`processLists`, with `limit = LIST_ITEM_LIMIT` and
`size = LIST_ITEM_SIZE`. Note that in the accept branch the code adds
`domain` to the blocklist set before the ceiling check and does not
remove it when the ceiling drops the domain from the output. -/
def step (A : List Str) (limit size : Int) (st : RState) (d : Str) : RState :=
  if d ∈ A then
    { st with processed := st.processed + 1, allowed := st.allowed + 1 }
  else if d ∈ st.blocklist then
    { st with processed := st.processed + 1, duplicates := st.duplicates + 1 }
  else
    match scanAncestors A st.blocklist ((extractDomain d).drop 1) with
    | some true =>
      { st with processed := st.processed + 1, allowed := st.allowed + 1 }
    | some false =>
      { st with processed := st.processed + 1, duplicates := st.duplicates + 1 }
    | none =>
      if (st.domains.length : Int) > limit - size then
        { st with processed := st.processed + 1, blocklist := d :: st.blocklist }
      else
        { st with processed := st.processed + 1, blocklist := d :: st.blocklist,
                  domains := st.domains ++ [d] }

/-- The whole reconciliation loop over the raw blocklist in iteration
order. -/
def processDomains (A : List Str) (limit size : Int) (raw : List Str) : RState :=
  raw.foldl (step A limit size) initState

/-! ## Lemmas about the ancestor scan -/

theorem scanAncestors_eq_find (A B : List Str) (l : List Str) :
    scanAncestors A B l
      = (l.find? (fun x => decide (x ∈ A) || decide (x ∈ B))).map
          (fun x => decide (x ∈ A)) := by
  induction l with
  | nil => simp [scanAncestors]
  | cons x xs ih =>
    by_cases hA : x ∈ A
    · simp [scanAncestors, List.find?, hA]
    · by_cases hB : x ∈ B
      · simp [scanAncestors, List.find?, hA, hB]
      · simp [scanAncestors, List.find?, hA, hB, ih]

theorem scanAncestors_ne_none {A B : List Str} {l : List Str} {x : Str}
    (hx : x ∈ l) (hit : x ∈ A ∨ x ∈ B) :
    scanAncestors A B l ≠ none := by
  induction l with
  | nil => simp at hx
  | cons y ys ih =>
    simp only [scanAncestors]
    rcases List.mem_cons.mp hx with hx | hx
    · subst hx
      rcases hit with h | h
      · simp [h]
      · by_cases hA : x ∈ A <;> simp [hA, h]
    · by_cases hA : y ∈ A
      · simp [hA]
      · by_cases hB : y ∈ B
        · simp [hA, hB]
        · simpa [hA, hB] using ih hx

theorem exists_hit_of_scanAncestors_eq_some {A B : List Str} {l : List Str}
    {b : Bool} (h : scanAncestors A B l = some b) :
    ∃ x ∈ l, x ∈ A ∨ x ∈ B := by
  induction l with
  | nil => simp [scanAncestors] at h
  | cons y ys ih =>
    simp only [scanAncestors] at h
    by_cases hA : y ∈ A
    · exact ⟨y, List.mem_cons_self _ _, Or.inl hA⟩
    · by_cases hB : y ∈ B
      · exact ⟨y, List.mem_cons_self _ _, Or.inr hB⟩
      · rw [if_neg hA, if_neg hB] at h
        obtain ⟨x, hx, hit⟩ := ih h
        exact ⟨x, List.mem_cons_of_mem _ hx, hit⟩

/-! ## Invariants of the loop step -/

theorem step_blocklist_mono (A : List Str) (K c : Int) (st : RState) (d : Str) :
    st.blocklist ⊆ (step A K c st d).blocklist := by
  intro x hx
  unfold step
  split
  · exact hx
  · split
    · exact hx
    · split
      · exact hx
      · exact hx
      · split
        · exact List.mem_cons_of_mem _ hx
        · exact List.mem_cons_of_mem _ hx

theorem foldl_blocklist_mono (A : List Str) (K c : Int) :
    ∀ (l : List Str) (st : RState),
      st.blocklist ⊆ (l.foldl (step A K c) st).blocklist := by
  intro l
  induction l with
  | nil => intro st; simp [List.foldl]
  | cons x xs ih =>
    intro st
    simp only [List.foldl_cons]
    exact fun y hy => ih (step A K c st x) (step_blocklist_mono A K c st x hy)

theorem mem_domains_step {A : List Str} {K c : Int} {st : RState} {d x : Str}
    (hx : x ∈ (step A K c st d).domains) : x ∈ st.domains ∨ x = d := by
  unfold step at hx
  split at hx
  · exact Or.inl hx
  · split at hx
    · exact Or.inl hx
    · split at hx
      · exact Or.inl hx
      · exact Or.inl hx
      · split at hx
        · exact Or.inl hx
        · rcases List.mem_append.mp hx with h | h
          · exact Or.inl h
          · exact Or.inr (List.mem_singleton.mp h)

/-- Each loop iteration either leaves both the blocklist set and the
output unchanged, or adds the domain to the blocklist set, with or
without appending it to the output. -/
theorem step_cases (A : List Str) (K c : Int) (st : RState) (d : Str) :
    ((step A K c st d).domains = st.domains ∧
       (step A K c st d).blocklist = st.blocklist) ∨
    ((step A K c st d).domains = st.domains ∧
       (step A K c st d).blocklist = d :: st.blocklist) ∨
    ((step A K c st d).domains = st.domains ++ [d] ∧
       (step A K c st d).blocklist = d :: st.blocklist) := by
  unfold step
  split
  · exact Or.inl ⟨rfl, rfl⟩
  · split
    · exact Or.inl ⟨rfl, rfl⟩
    · split
      · exact Or.inl ⟨rfl, rfl⟩
      · exact Or.inl ⟨rfl, rfl⟩
      · split
        · exact Or.inr (Or.inl ⟨rfl, rfl⟩)
        · exact Or.inr (Or.inr ⟨rfl, rfl⟩)

theorem mem_domains_step_blocklist {A : List Str} {K c : Int} {st : RState}
    {d x : Str} (hx : x ∈ (step A K c st d).domains) :
    x ∈ st.domains ∨ x ∈ (step A K c st d).blocklist := by
  rcases step_cases A K c st d with ⟨hd, _⟩ | ⟨hd, _⟩ | ⟨hd, hb⟩
  · exact Or.inl (hd ▸ hx)
  · exact Or.inl (hd ▸ hx)
  · rw [hd] at hx
    rcases List.mem_append.mp hx with h | h
    · exact Or.inl h
    · refine Or.inr ?_
      rw [hb, List.mem_singleton.mp h]
      exact List.mem_cons_self _ _

theorem mem_domains_foldl {A : List Str} {K c : Int} :
    ∀ {l : List Str} {st : RState} {x : Str},
      x ∈ (l.foldl (step A K c) st).domains → x ∈ st.domains ∨ x ∈ l := by
  intro l
  induction l with
  | nil => intro st x hx; exact Or.inl hx
  | cons y ys ih =>
    intro st x hx
    simp only [List.foldl_cons] at hx
    rcases ih hx with h | h
    · rcases mem_domains_step h with h1 | h1
      · exact Or.inl h1
      · exact Or.inr (by simp [h1])
    · exact Or.inr (List.mem_cons_of_mem _ h)

theorem mem_domains_foldl_blocklist {A : List Str} {K c : Int} :
    ∀ {l : List Str} {st : RState} {x : Str},
      x ∈ (l.foldl (step A K c) st).domains →
        x ∈ st.domains ∨ x ∈ (l.foldl (step A K c) st).blocklist := by
  intro l
  induction l with
  | nil => intro st x hx; exact Or.inl hx
  | cons y ys ih =>
    intro st x hx
    simp only [List.foldl_cons] at hx ⊢
    rcases ih hx with h | h
    · rcases mem_domains_step_blocklist h with h1 | h1
      · exact Or.inl h1
      · exact Or.inr (foldl_blocklist_mono A K c ys _ h1)
    · exact Or.inr h

/-- The skip condition for a domain: an exact allowlist hit, or some
element of the scanned `extractDomain · |>.drop 1` list present in the
allowlist or in the given blocklist. -/
def SkipCond (A blk : List Str) (a : Str) : Prop :=
  a ∈ A ∨ ∃ x, x ∈ (extractDomain a).drop 1 ∧ (x ∈ A ∨ x ∈ blk)

theorem skipCond_mono {A blk blk' : List Str} {a : Str}
    (h : SkipCond A blk a) (hsub : blk ⊆ blk') : SkipCond A blk' a := by
  rcases h with h | ⟨x, hx, hit⟩
  · exact Or.inl h
  · rcases hit with hit | hit
    · exact Or.inr ⟨x, hx, Or.inl hit⟩
    · exact Or.inr ⟨x, hx, Or.inr (hsub hit)⟩

/-- A domain satisfying the skip condition is skipped: the blocklist
set and the output array are unchanged by its iteration. -/
theorem step_skip {A : List Str} {K c : Int} {st : RState} {a : Str}
    (h : SkipCond A st.blocklist a) :
    (step A K c st a).domains = st.domains ∧
      (step A K c st a).blocklist = st.blocklist := by
  unfold step
  by_cases hA : a ∈ A
  · simp [hA]
  · rw [if_neg hA]
    by_cases hblk : a ∈ st.blocklist
    · simp [hblk]
    · rw [if_neg hblk]
      rcases h with h | ⟨x, hx, hit⟩
      · exact absurd h hA
      · have hne := scanAncestors_ne_none hx hit
        cases hscan : scanAncestors A st.blocklist ((extractDomain a).drop 1) with
        | none => exact absurd hscan hne
        | some b => cases b <;> simp

/-- After its own iteration, a domain is either in the blocklist set or
satisfies the skip condition. -/
theorem step_self_cases (A : List Str) (K c : Int) (st : RState) (a : Str) :
    a ∈ (step A K c st a).blocklist ∨ SkipCond A (step A K c st a).blocklist a := by
  by_cases hA : a ∈ A
  · exact Or.inr (Or.inl hA)
  · by_cases hblk : a ∈ st.blocklist
    · exact Or.inl (step_blocklist_mono A K c st a hblk)
    · cases hscan : scanAncestors A st.blocklist ((extractDomain a).drop 1) with
      | some b =>
        obtain ⟨x, hx, hit⟩ := exists_hit_of_scanAncestors_eq_some hscan
        exact Or.inr (skipCond_mono (Or.inr ⟨x, hx, hit⟩)
          (step_blocklist_mono A K c st a))
      | none =>
        left
        unfold step
        rw [if_neg hA, if_neg hblk, hscan]
        split
        · rename_i heq; exact Option.noConfusion heq
        · rename_i heq; exact Option.noConfusion heq
        · split <;> exact List.mem_cons_self _ _

/-- The invariant "in the blocklist or skippable" is preserved by the
rest of the loop. -/
theorem foldl_self_cases {A : List Str} {K c : Int} {a : Str} :
    ∀ {l : List Str} {st : RState},
      a ∈ st.blocklist ∨ SkipCond A st.blocklist a →
      a ∈ (l.foldl (step A K c) st).blocklist ∨
        SkipCond A (l.foldl (step A K c) st).blocklist a := by
  intro l
  induction l with
  | nil => intro st h; simpa using h
  | cons x xs ih =>
    intro st h
    simp only [List.foldl_cons]
    apply ih
    rcases h with h | h
    · exact Or.inl (step_blocklist_mono A K c st x h)
    · exact Or.inr (skipCond_mono h (step_blocklist_mono A K c st x))

/-- A domain that satisfies the skip condition and has not been output
yet is never output by the rest of the loop. -/
theorem foldl_no_push {A : List Str} {K c : Int} {a : Str} :
    ∀ {l : List Str} {st : RState},
      SkipCond A st.blocklist a → a ∉ st.domains →
      a ∉ (l.foldl (step A K c) st).domains := by
  intro l
  induction l with
  | nil => intro st _ h; simpa using h
  | cons x xs ih =>
    intro st hskip hnot
    simp only [List.foldl_cons]
    apply ih (skipCond_mono hskip (step_blocklist_mono A K c st x))
    by_cases hxa : x = a
    · subst hxa
      rw [(step_skip hskip).1]
      exact hnot
    · intro hmem
      rcases mem_domains_step hmem with h | h
      · exact hnot h
      · exact hxa h.symm

/-! ## Valid domains have at least two labels -/

theorem length_splitDot_of_valid {a : Str} (h : isValidDomain a = true) :
    2 ≤ (splitDot a).length := by
  unfold isValidDomain at h
  simp only [Bool.and_eq_true, decide_eq_true_eq] at h
  exact h.1.1

theorem dot_mem_of_valid {a : Str} (h : isValidDomain a = true) : '.' ∈ a := by
  have h2 := length_splitDot_of_valid h
  unfold splitDot at h2
  rw [length_splitCh] at h2
  have : 1 ≤ a.count '.' := by omega
  exact List.count_pos_iff.mp (by omega)

/-- An allowlisted valid domain that is the blocklist domain itself or
one of its ancestors is seen by the loop: either by the exact allowlist
check or inside the scanned `extractDomain · |>.drop 1` list. -/
theorem skipCond_of_valid_ancestor {A : List Str} {blk : List Str} {a d : Str}
    (hval : isValidDomain a = true) (ha : a ∈ A)
    (hanc : a ∈ extractDomain d) : SkipCond A blk d := by
  by_cases had : a = d
  · exact Or.inl (had ▸ ha)
  · have hdot : '.' ∈ a := dot_mem_of_valid hval
    have hdrop : a ∈ (extractDomain d).drop 1 :=
      mem_drop_one_extractDomain hanc hdot
    exact Or.inr ⟨a, hdrop, Or.inl ha⟩

/-- Claim C1: for every allow set whose members are valid canonical
domains and every raw blocklist domain `d`, if the allow set contains
`d` itself or any ancestor of `d` (an element of `extractDomain d`),
then `d` does not appear in the final block list produced by the
reconciliation loop, for any raw blocklist and any ceiling/chunk-size
configuration. -/
theorem c1_allow_ancestor_excludes (A raw : List Str) (K c : Int) (a d : Str)
    (hval : ∀ x ∈ A, isValidDomain x = true)
    (ha : a ∈ A) (hanc : a ∈ extractDomain d) :
    d ∉ (processDomains A K c raw).domains := by
  have hskip : SkipCond A initState.blocklist d :=
    skipCond_of_valid_ancestor (hval a ha) ha hanc
  exact foldl_no_push hskip (by simp [initState])

theorem c1_witness :
    ((∀ x ∈ [strL "example.com"], isValidDomain x = true) ∧
      strL "example.com" ∈ [strL "example.com"] ∧
      strL "example.com" ∈ extractDomain (strL "sub.example.com")) ∧
    strL "sub.example.com" ∉
      (processDomains [strL "example.com"] 300000 1000
        [strL "tracker.net", strL "sub.example.com"]).domains :=
  ⟨⟨by decide, by decide, by decide⟩,
    c1_allow_ancestor_excludes [strL "example.com"]
      [strL "tracker.net", strL "sub.example.com"] 300000 1000
      (strL "example.com") (strL "sub.example.com")
      (by decide) (by decide) (by decide)⟩

/-! ## Claim C2: no redundant subdomain blocking -/

/-- A domain that occurs in the processed prefix and ends up in the
final output must already be in the blocklist set right after that
prefix is processed (the code adds accepted domains to the set before
the ceiling check, and skip reasons only persist). -/
theorem blocklist_after_prefix {A : List Str} {K c : Int} {a : Str}
    {u v : List Str} (hau : a ∈ u)
    (hfin : a ∈ ((u ++ v).foldl (step A K c) initState).domains) :
    a ∈ (u.foldl (step A K c) initState).blocklist := by
  obtain ⟨u1, u2, rfl⟩ := List.append_of_mem hau
  rw [List.foldl_append, List.foldl_append, List.foldl_cons] at hfin
  rw [List.foldl_append, List.foldl_cons]
  set st1 := u1.foldl (step A K c) initState with hst1
  set stu := u2.foldl (step A K c) (step A K c st1 a) with hstu
  rcases foldl_self_cases (l := u2) (step_self_cases A K c st1 a) with h | h
  · exact h
  · -- `a` is skippable after the prefix
    by_cases hdom : a ∈ stu.domains
    · -- then it was already output, hence pushed, hence in the blocklist
      rcases mem_domains_foldl_blocklist (l := u2) hdom with hdom1 | hblk1
      · rcases mem_domains_step_blocklist hdom1 with hdom2 | hblk2
        · rcases mem_domains_foldl_blocklist (l := u1) hdom2 with h0 | hblk3
          · simp [initState] at h0
          · exact foldl_blocklist_mono A K c u2 _
              (step_blocklist_mono A K c st1 a hblk3)
        · exact foldl_blocklist_mono A K c u2 _ hblk2
      · exact hblk1
    · -- otherwise it could never be output later, contradicting `hfin`
      exact absurd hfin (foldl_no_push h hdom)

/-- Claim C2, counterexample: with the raw blocklist iterated as
`["x.a.com", "a.com"]` (subdomain before ancestor) and an empty allow
set, both the strict ancestor `a.com` and its descendant `x.a.com`
appear in the final block list, so the claimed property fails for this
iteration order. -/
theorem c2_counterexample :
    strL "a.com" ∈ extractDomain (strL "x.a.com") ∧
    strL "a.com" ≠ strL "x.a.com" ∧
    strL "a.com" ∈
      (processDomains [] 300000 1000 [strL "x.a.com", strL "a.com"]).domains ∧
    strL "x.a.com" ∈
      (processDomains [] 300000 1000 [strL "x.a.com", strL "a.com"]).domains := by
  refine ⟨by decide, by decide, by decide, by decide⟩

/-- Claim C2 (amended): the property holds when the ancestor is
processed before every occurrence of the descendant: if the valid
domain `a` is a strict ancestor of `d`, `a` occurs in the processed
prefix `u`, `d` does not occur in `u`, and `a` is in the final block
list, then `d` is not in the final block list. -/
theorem c2_subdomain_not_blocked (A : List Str) (u v : List Str) (K c : Int)
    (a d : Str) (hval : isValidDomain a = true) (hne : a ≠ d)
    (hanc : a ∈ extractDomain d) (hau : a ∈ u) (hdu : d ∉ u)
    (hfin : a ∈ (processDomains A K c (u ++ v)).domains) :
    d ∉ (processDomains A K c (u ++ v)).domains := by
  have hablk : a ∈ (u.foldl (step A K c) initState).blocklist :=
    blocklist_after_prefix hau hfin
  have hdrop : a ∈ (extractDomain d).drop 1 :=
    mem_drop_one_extractDomain hanc (dot_mem_of_valid hval)
  unfold processDomains at *
  rw [List.foldl_append]
  set stu := u.foldl (step A K c) initState with hstu
  have hdnot : d ∉ stu.domains := fun hdom => by
    rcases mem_domains_foldl (l := u) hdom with h0 | h0
    · simp [initState] at h0
    · exact hdu h0
  exact foldl_no_push (Or.inr ⟨a, hdrop, Or.inr hablk⟩) hdnot

theorem c2_witness :
    (isValidDomain (strL "a.com") = true ∧
      strL "a.com" ≠ strL "x.a.com" ∧
      strL "a.com" ∈ extractDomain (strL "x.a.com") ∧
      strL "a.com" ∈ [strL "b.net", strL "a.com"] ∧
      strL "x.a.com" ∉ [strL "b.net", strL "a.com"] ∧
      strL "a.com" ∈
        (processDomains [] 300000 1000
          ([strL "b.net", strL "a.com"] ++ [strL "x.a.com"])).domains) ∧
    strL "x.a.com" ∉
      (processDomains [] 300000 1000
        ([strL "b.net", strL "a.com"] ++ [strL "x.a.com"])).domains :=
  ⟨⟨by decide, by decide, by decide, by decide, by decide, by decide⟩,
    c2_subdomain_not_blocked [] [strL "b.net", strL "a.com"] [strL "x.a.com"]
      300000 1000 (strL "a.com") (strL "x.a.com")
      (by decide) (by decide) (by decide) (by decide) (by decide) (by decide)⟩

/-! ## Claim C3: order of the ancestor checks -/

/-- Modelled from the claim's words (not from the code): one loop
iteration that scans the strict ancestors of `d` excluding `d` itself,
ordered from the most specific ancestor to the least specific. -/
def stepClaimedOrder (A : List Str) (limit size : Int) (st : RState) (d : Str) :
    RState :=
  if d ∈ A then
    { st with processed := st.processed + 1, allowed := st.allowed + 1 }
  else if d ∈ st.blocklist then
    { st with processed := st.processed + 1, duplicates := st.duplicates + 1 }
  else
    match scanAncestors A st.blocklist ((extractDomain d).dropLast.reverse) with
    | some true =>
      { st with processed := st.processed + 1, allowed := st.allowed + 1 }
    | some false =>
      { st with processed := st.processed + 1, duplicates := st.duplicates + 1 }
    | none =>
      if (st.domains.length : Int) > limit - size then
        { st with processed := st.processed + 1, blocklist := d :: st.blocklist }
      else
        { st with processed := st.processed + 1, blocklist := d :: st.blocklist,
                  domains := st.domains ++ [d] }

/-- Modelled from the claim's words: the loop with the claimed ancestor
order. -/
def processClaimedOrder (A : List Str) (limit size : Int) (raw : List Str) :
    RState :=
  raw.foldl (stepClaimedOrder A limit size) initState

/-- Claim C3, counterexample: with allow set `{a.b.com}` and raw
blocklist `["b.com", "x.a.b.com"]`, the code scans the ancestors of
`x.a.b.com` from the least specific suffix onward and hits the blocked
`b.com` first (counting the domain as a duplicate), whereas the claimed
most-specific-first order would hit the allowlisted `a.b.com` first
(counting it as allowed); the two runs disagree. -/
theorem c3_counterexample :
    (processDomains [strL "a.b.com"] 300000 1000
        [strL "b.com", strL "x.a.b.com"]).allowed = 0 ∧
    (processDomains [strL "a.b.com"] 300000 1000
        [strL "b.com", strL "x.a.b.com"]).duplicates = 1 ∧
    (processClaimedOrder [strL "a.b.com"] 300000 1000
        [strL "b.com", strL "x.a.b.com"]).allowed = 1 ∧
    (processClaimedOrder [strL "a.b.com"] 300000 1000
        [strL "b.com", strL "x.a.b.com"]).duplicates = 0 ∧
    processDomains [strL "a.b.com"] 300000 1000
        [strL "b.com", strL "x.a.b.com"] ≠
      processClaimedOrder [strL "a.b.com"] 300000 1000
        [strL "b.com", strL "x.a.b.com"] := by
  refine ⟨by decide, by decide, by decide, by decide, by decide⟩

/-- Claim C3 (amended): the inner loop scans `extractDomain d` minus
its first element, i.e. the suffix domains of `d` ordered from the
least specific scanned suffix to the most specific, excluding the
single-label suffix and ending with `d` itself; it stops at the first
element found in the allow set (yielding `some true`, counted as
allowed) or in the block set (yielding `some false`, counted as
duplicate). -/
theorem c3_scan_order (A B : List Str) (d : Str) :
    scanAncestors A B ((extractDomain d).drop 1)
        = (((extractDomain d).drop 1).find?
            (fun x => decide (x ∈ A) || decide (x ∈ B))).map
            (fun x => decide (x ∈ A)) ∧
      (extractDomain d).getLast? = some d :=
  ⟨scanAncestors_eq_find A B ((extractDomain d).drop 1),
    getLast?_extractDomain d⟩

/-! ## Claims C4 and C5: the ceiling check -/

/-- Claim C4, counterexample: the ceiling guard is a strict comparison
(`domains.length > LIST_ITEM_LIMIT - LIST_ITEM_SIZE`), so with ceiling
1001 and chunk size `LIST_ITEM_SIZE = 1000` the loop outputs 2 domains,
exceeding the claimed bound `LIST_ITEM_LIMIT - LIST_ITEM_SIZE = 1`. -/
theorem c4_counterexample :
    ¬ (((processDomains [] 1001 LIST_ITEM_SIZE
          [strL "a.com", strL "b.net", strL "c.org"]).domains.length : Int)
        ≤ 1001 - LIST_ITEM_SIZE) := by
  decide

theorem step_domains_length {A : List Str} {K c : Int} {st : RState} {d : Str}
    (h : st.domains.length ≤ (K - c + 1).toNat) :
    (step A K c st d).domains.length ≤ (K - c + 1).toNat := by
  unfold step
  split
  · exact h
  · split
    · exact h
    · split
      · exact h
      · exact h
      · split
        · exact h
        · rename_i hguard
          simp only [List.length_append, List.length_cons, List.length_nil]
          omega

theorem foldl_domains_length {A : List Str} {K c : Int} :
    ∀ (l : List Str) (st : RState), st.domains.length ≤ (K - c + 1).toNat →
      (l.foldl (step A K c) st).domains.length ≤ (K - c + 1).toNat := by
  intro l
  induction l with
  | nil => intro st h; exact h
  | cons x xs ih =>
    intro st h
    simp only [List.foldl_cons]
    exact ih _ (step_domains_length h)

/-- A skipped-for-ceiling iteration leaves the output unchanged. -/
theorem step_over_ceiling (A : List Str) (K c : Int) (st : RState) (x : Str)
    (hgt : (st.domains.length : Int) > K - c) :
    (step A K c st x).domains = st.domains := by
  unfold step
  split
  · rfl
  · split
    · rfl
    · split
      · rfl
      · rfl
      · rfl

/-- Claim C4 (amended): the final block list contains at most
`LIST_ITEM_LIMIT - LIST_ITEM_SIZE + 1` domains (the guard uses a strict
comparison, so one more domain than the claimed `K - c` can be
accepted); and once the output length exceeds `K - c`, every further
iteration leaves the output unchanged. -/
theorem c4_ceiling_bound (A raw : List Str) (K c : Int) :
    (processDomains A K c raw).domains.length ≤ (K - c + 1).toNat ∧
    ∀ st x, (st.domains.length : Int) > K - c →
      (step A K c st x).domains = st.domains :=
  ⟨foldl_domains_length raw initState (by simp [initState]),
    fun st x hgt => step_over_ceiling A K c st x hgt⟩

theorem c4_witness :
    ((processDomains [] 1001 LIST_ITEM_SIZE
        [strL "a.com", strL "b.net", strL "c.org"]).domains.length
      ≤ ((1001 : Int) - LIST_ITEM_SIZE + 1).toNat) ∧
    ((step [] 1001 LIST_ITEM_SIZE
        ⟨[strL "a.com", strL "b.net"], [strL "a.com", strL "b.net"], 2, 0, 0⟩
        (strL "c.org")).domains = [strL "a.com", strL "b.net"]) :=
  ⟨(c4_ceiling_bound [] [strL "a.com", strL "b.net", strL "c.org"]
      1001 LIST_ITEM_SIZE).1,
    (c4_ceiling_bound [] [strL "a.com", strL "b.net", strL "c.org"]
      1001 LIST_ITEM_SIZE).2
      ⟨[strL "a.com", strL "b.net"], [strL "a.com", strL "b.net"], 2, 0, 0⟩
      (strL "c.org") (by decide)⟩

/-! ## Claim C5: a ceiling-dropped domain still enters the block set -/

/-- Claim C5, counterexample: with ceiling 1 and chunk size 1, the
second domain `b.com` is dropped from the output by the ceiling check,
yet it is still inserted into the growing blocklist set, and its later
subdomain `x.b.com` is consequently counted as a duplicate, contrary to
the claim that the block index is left unchanged by that iteration. -/
theorem c5_counterexample :
    strL "b.com" ∈
      (processDomains [] 1 1 [strL "a.com", strL "b.com"]).blocklist ∧
    strL "b.com" ∉
      (processDomains [] 1 1 [strL "a.com", strL "b.com"]).domains ∧
    (processDomains [] 1 1 [strL "a.com", strL "b.com", strL "x.b.com"]).duplicates
      = 1 := by
  refine ⟨by decide, by decide, by decide⟩

/-- Claim C5 (amended): when the ceiling headroom is exhausted, an
accepted-eligible domain is dropped from the output only; it is still
inserted into the growing blocklist set, so its later subdomains are
treated as covered. -/
theorem c5_ceiling_drop_adds_block (A : List Str) (K c : Int) (st : RState)
    (d : Str) (h1 : d ∉ A) (h2 : d ∉ st.blocklist)
    (h3 : scanAncestors A st.blocklist ((extractDomain d).drop 1) = none)
    (h4 : (st.domains.length : Int) > K - c) :
    (step A K c st d).blocklist = d :: st.blocklist ∧
      (step A K c st d).domains = st.domains := by
  unfold step
  rw [if_neg h1, if_neg h2, h3, if_pos h4]
  exact ⟨rfl, rfl⟩

theorem c5_witness :
    ((strL "b.com" ∉ ([] : List Str)) ∧
      (strL "b.com" ∉ [strL "a.com"]) ∧
      scanAncestors [] [strL "a.com"]
        ((extractDomain (strL "b.com")).drop 1) = none ∧
      (((RState.mk [strL "a.com"] [strL "a.com"] 1 0 0).domains.length : Int)
        > 1 - 1)) ∧
    (step [] 1 1 (RState.mk [strL "a.com"] [strL "a.com"] 1 0 0)
        (strL "b.com")).blocklist = strL "b.com" :: [strL "a.com"] ∧
    (step [] 1 1 (RState.mk [strL "a.com"] [strL "a.com"] 1 0 0)
        (strL "b.com")).domains = [strL "a.com"] :=
  ⟨⟨by decide, by decide, by decide, by decide⟩,
    c5_ceiling_drop_adds_block [] 1 1
      (RState.mk [strL "a.com"] [strL "a.com"] 1 0 0) (strL "b.com")
      (by decide) (by decide) (by decide) (by decide)⟩

/-! ## Claim C6: idempotence of the normalizer -/

/-- Characters that can occur in a string accepted by `isValidDomain`:
lowercase letters, digits, hyphen (code 45) and dot (code 46). -/
def safeChar (c : Char) : Bool :=
  isAlphaNum c || c.toNat = 45 || c.toNat = 46

theorem eq_append_of_hasPrefixL :
    ∀ {pat l : Str}, hasPrefixL pat l = true → l = pat ++ l.drop pat.length := by
  intro pat
  induction pat with
  | nil => intro l _; simp
  | cons p ps ih =>
    intro l h
    cases l with
    | nil => simp [hasPrefixL] at h
    | cons c cs =>
      simp only [hasPrefixL, Bool.and_eq_true, beq_iff_eq] at h
      obtain ⟨rfl, h2⟩ := h
      simpa using ih h2

theorem altLabel_chars {l : Str} (h : altLabel l = true) {c : Char}
    (hc : c ∈ l) : isAlphaNum c = true ∨ c = '-' := by
  unfold altLabel at h
  rw [List.all_eq_true] at h
  rcases mem_splitCh_decomp '-' hc with h1 | ⟨p, hp, hcp⟩
  · exact Or.inr h1
  · have := h p hp
    simp only [Bool.and_eq_true] at this
    exact Or.inl (List.all_eq_true.mp this.2 c hcp)

theorem labelOk_chars {l : Str} (h : labelOk l = true) {c : Char}
    (hc : c ∈ l) : safeChar c = true := by
  unfold labelOk at h
  simp only [Bool.and_eq_true, Bool.or_eq_true] at h
  rcases h.2 with h2 | h2
  · rcases altLabel_chars h2 hc with h3 | h3
    · simp [safeChar, h3]
    · subst h3; decide
  · obtain ⟨hpre, halt⟩ := h2
    have hdec := eq_append_of_hasPrefixL hpre
    rw [hdec] at hc
    rcases List.mem_append.mp hc with h3 | h3
    · have hx : strL "xn--" = ['x', 'n', '-', '-'] := rfl
      rw [hx] at h3
      fin_cases h3 <;> decide
    · rcases altLabel_chars halt h3 with h4 | h4
      · simp [safeChar, h4]
      · subst h4; decide

theorem finalLabelOk_chars {l : Str} (h : finalLabelOk l = true) {c : Char}
    (hc : c ∈ l) : safeChar c = true := by
  unfold finalLabelOk at h
  simp only [Bool.and_eq_true] at h
  have := List.all_eq_true.mp h.2 c hc
  simp only [isLowerAlpha, Bool.and_eq_true, decide_eq_true_eq] at this
  simp only [safeChar, isAlphaNum, Bool.or_eq_true, Bool.and_eq_true,
    decide_eq_true_eq]
  omega

theorem valid_chars {s : Str} (h : isValidDomain s = true) {c : Char}
    (hc : c ∈ s) : safeChar c = true := by
  unfold isValidDomain splitDot at h
  simp only [Bool.and_eq_true, decide_eq_true_eq] at h
  obtain ⟨⟨hlen, hfin⟩, hlab⟩ := h
  rcases mem_splitCh_decomp '.' hc with h1 | ⟨p, hp, hcp⟩
  · subst h1; decide
  · rcases List.eq_nil_or_concat' (splitCh '.' s) with hnil | ⟨q, b, hqb⟩
    · exact absurd hnil (splitCh_ne_nil '.' s)
    · rw [hqb] at hp hlab hfin
      rcases List.mem_append.mp hp with h2 | h2
      · rw [List.dropLast_concat] at hlab
        exact labelOk_chars (List.all_eq_true.mp hlab p h2) hcp
      · have hpb : p = b := List.mem_singleton.mp h2
        subst hpb
        rw [List.getLastD_concat] at hfin
        exact finalLabelOk_chars hfin hcp

theorem safeChar_not_ws {c : Char} (h : safeChar c = true) :
    isWsChar c = false := by
  simp only [safeChar, isAlphaNum, Bool.or_eq_true, Bool.and_eq_true,
    decide_eq_true_eq] at h
  simp only [isWsChar, Bool.or_eq_true, Bool.and_eq_true, decide_eq_true_eq,
    Bool.eq_false_iff, ne_eq]
  omega

theorem replaceFirst_cons_id {p0 : Char} {ps l : Str}
    (h : p0 ∉ l) : replaceFirst (p0 :: ps) l = l := by
  induction l with
  | nil => rfl
  | cons c cs ih =>
    unfold replaceFirst
    have hne : (p0 == c) = false :=
      beq_eq_false_iff_ne.mpr (fun hpc => h (hpc ▸ List.mem_cons_self _ _))
    simp only [hasPrefixL, hne, Bool.false_and, Bool.false_eq_true, if_false]
    rw [ih (fun hm => h (List.mem_cons_of_mem _ hm))]

theorem replaceFirst_id (pat : Str) {l : Str} {h₀ : Char}
    (hhd : pat.head? = some h₀) (hmem : h₀ ∉ l) : replaceFirst pat l = l := by
  cases pat with
  | nil => simp at hhd
  | cons p ps =>
    simp only [List.head?_cons, Option.some.injEq] at hhd
    subst hhd
    exact replaceFirst_cons_id hmem

theorem exists_ws_of_tryIpAlt_some {pat l : Str} {n : Nat}
    (h : tryIpAlt pat l = some n) : ∃ c ∈ l, isWsChar c = true := by
  unfold tryIpAlt at h
  split at h
  · rename_i hpre
    split at h
    · exact absurd h (by simp)
    · rename_i hw
      cases htw : (l.drop pat.length).takeWhile isWsChar with
      | nil => rw [htw] at hw; simp at hw
      | cons w ws =>
        have hwmem : w ∈ (l.drop pat.length).takeWhile isWsChar := by
          rw [htw]; exact List.mem_cons_self _ _
        have h1 : w ∈ l.drop pat.length :=
          List.Sublist.mem hwmem (List.takeWhile_sublist isWsChar)
        have h2 : isWsChar w = true := List.mem_takeWhile_imp hwmem
        exact ⟨w, List.mem_of_mem_drop h1, h2⟩
  · exact absurd h (by simp)

theorem exists_ws_of_matchIpAt_some {l : Str} {n : Nat}
    (h : matchIpAt l = some n) : ∃ c ∈ l, isWsChar c = true := by
  unfold matchIpAt at h
  cases h1 : tryIpAlt (strL "0.0.0.0") l with
  | some m => exact exists_ws_of_tryIpAlt_some h1
  | none =>
    rw [h1] at h
    cases h2 : tryIpAlt (strL "127.0.0.1") l with
    | some m => exact exists_ws_of_tryIpAlt_some h2
    | none =>
      rw [h2] at h
      cases h3 : tryIpAlt (strL "::1") l with
      | some m => exact exists_ws_of_tryIpAlt_some h3
      | none =>
        rw [h3] at h
        exact exists_ws_of_tryIpAlt_some h

theorem replaceIp_id_of_no_ws {l : Str}
    (h : ∀ c ∈ l, isWsChar c = false) : replaceIp l = l := by
  induction l with
  | nil => rfl
  | cons c cs ih =>
    unfold replaceIp
    cases hm : matchIpAt (c :: cs) with
    | some n =>
      obtain ⟨w, hwmem, hws⟩ := exists_ws_of_matchIpAt_some hm
      rw [h w hwmem] at hws
      exact absurd hws (by simp)
    | none =>
      rw [ih (fun x hx => h x (List.mem_cons_of_mem _ hx))]

/-- On a string all of whose characters are domain characters, every
stripping stage of `normalizeDomain` is the identity. -/
theorem normalizeDomain_id_of_safe {t : Str} (h : ∀ c ∈ t, safeChar c = true)
    (b : Bool) : normalizeDomain t b = t := by
  have hat : '@' ∉ t := fun hm => absurd (h _ hm) (by decide)
  have hbar : '|' ∉ t := fun hm => absurd (h _ hm) (by decide)
  have hcar : '^' ∉ t := fun hm => absurd (h _ hm) (by decide)
  have hast : '*' ∉ t := fun hm => absurd (h _ hm) (by decide)
  have hws : ∀ c ∈ t, isWsChar c = false := fun c hc => safeChar_not_ws (h c hc)
  unfold normalizeDomain
  have hinit : (if b then replaceFirst (strL "@@||") t else t) = t := by
    cases b with
    | false => rfl
    | true => exact replaceFirst_id (strL "@@||") rfl hat
  simp only [hinit, replaceIp_id_of_no_ws hws,
    replaceFirst_id (strL "||") rfl hbar,
    replaceFirst_id (strL "^$important") rfl hcar,
    replaceFirst_id (strL "*.") rfl hast,
    replaceFirst_id (strL "^") rfl hcar]

/-- Claim C6, counterexample: `normalizeDomain` is not idempotent on
arbitrary strings, because each `replace` removes only the first
occurrence of its pattern: normalizing `"^^"` once yields `"^"`, and
normalizing it again yields `""`. -/
theorem c6_counterexample :
    normalizeDomain (normalizeDomain (strL "^^") false) false
      ≠ normalizeDomain (strL "^^") false := by
  decide

/-- Claim C6 (amended): `normalizeDomain` is idempotent on every input
whose normalization result is a valid domain — in particular on all
entries kept by the pipeline's `isValidDomain` filter — for both the
allowlist and the blocklist variants. -/
theorem c6_idempotent_on_valid (s : Str) (b : Bool)
    (h : isValidDomain (normalizeDomain s b) = true) :
    normalizeDomain (normalizeDomain s b) b = normalizeDomain s b :=
  normalizeDomain_id_of_safe (fun _ hc => valid_chars h hc) b

theorem c6_witness :
    isValidDomain (normalizeDomain (strL "@@||example.com") true) = true ∧
    normalizeDomain (normalizeDomain (strL "@@||example.com") true) true
      = normalizeDomain (strL "@@||example.com") true :=
  ⟨by decide, c6_idempotent_on_valid (strL "@@||example.com") true (by decide)⟩

/-! ## Claim C7: the Wirefilter rule expression builder
(src/update_filter_lists.js lines 205–214) -/

def natStr (n : Nat) : Str := (Nat.repr n).toList

/-- A remote Zero Trust list object as seen by the builder. -/
structure CFListObj where
  id : Nat
  name : Str
deriving DecidableEq, Repr

/-- JS `s.slice(0, -4)`. -/
def sliceDropLast4 (l : Str) : Str := l.take (l.length - 4)

/-- The `reduce` of src/update_filter_lists.js lines 206–210: for every
list whose name starts with `"CGPS List"`, append
`` `${previous} any(dns.domains[*] in $${current.id}) or ` ``. -/
def wirefilterDNSReduce (lists : List CFListObj) : Str :=
  lists.foldl
    (fun previous current =>
      if hasPrefixL (strL "CGPS List") current.name then
        previous ++ strL " any(dns.domains[*] in $" ++ natStr current.id ++
          strL ") or "
      else previous)
    []

/-- The DNS rule expression actually passed to `upsertZeroTrustRule`:
the reduce result with the trailing four characters removed. -/
def wirefilterDNSExpression (lists : List CFListObj) : Str :=
  sliceDropLast4 (wirefilterDNSReduce lists)

/-- The SNI variant (lines 217–221), over `net.sni.domains`. -/
def wirefilterSNIReduce (lists : List CFListObj) : Str :=
  lists.foldl
    (fun previous current =>
      if hasPrefixL (strL "CGPS List") current.name then
        previous ++ strL " any(net.sni.domains[*] in $" ++ natStr current.id ++
          strL ") or "
      else previous)
    []

def wirefilterSNIExpression (lists : List CFListObj) : Str :=
  sliceDropLast4 (wirefilterSNIReduce lists)

/-- Claim C7, counterexample: on ids `[10, 20]` the built DNS expression
is not the claimed
`"any(dns.domains[*] in $10) or any(dns.domains[*] in $20)"`: the
template prefixes every clause with a space, so the result carries a
leading space and two spaces between clauses. -/
theorem c7_counterexample :
    wirefilterDNSExpression
        [CFListObj.mk 10 (strL "CGPS List - Chunk 1"),
          CFListObj.mk 20 (strL "CGPS List - Chunk 2")]
      ≠ strL "any(dns.domains[*] in $10) or any(dns.domains[*] in $20)" := by
  decide

/-- Claim C7 (amended): each clause is `" any(dns.domains[*] in $<id>) or "`
appended in list order for the `"CGPS List"`-named lists, and the final
`.slice(0, -4)` removes the trailing `" or "`; on ids `[10, 20]` this
yields `" any(dns.domains[*] in $10) or  any(dns.domains[*] in $20)"`
(leading space, double space between clauses), and the expression is
empty when there is no matching list. -/
theorem c7_expression_shape :
    wirefilterDNSExpression
        [CFListObj.mk 10 (strL "CGPS List - Chunk 1"),
          CFListObj.mk 20 (strL "CGPS List - Chunk 2")]
      = strL " any(dns.domains[*] in $10) or  any(dns.domains[*] in $20)" ∧
    wirefilterDNSExpression [] = [] ∧
    wirefilterDNSExpression [CFListObj.mk 5 (strL "Other List")] = [] := by
  refine ⟨by decide, by decide, by decide⟩

/-! ## Claims C9 and C10: the fetch pipeline (src/update_filter_lists.js
`fetchDomains`, lines 47–70) -/

/-- The outcome of `await fetch(url)` as observed by `fetchDomains`:
a successful response body, a non-ok HTTP status, or a thrown network
error. -/
inductive FetchOutcome where
  | success (text : Str)
  | httpError (status : Nat) (statusText : Str)
  | networkError (msg : Str)
deriving DecidableEq, Repr

def isFetchFailure : FetchOutcome → Bool
  | .success _ => false
  | .httpError _ _ => true
  | .networkError _ => true

/-- First-occurrence deduplication: the JS `new Set(array)` iteration
order. -/
def dedupAux (seen : List Str) : List Str → List Str
  | [] => []
  | x :: xs =>
    if x ∈ seen then dedupAux seen xs
    else x :: dedupAux (x :: seen) xs

def dedupFirst (l : List Str) : List Str := dedupAux [] l

/-- The pure per-text pipeline of `fetchDomains`:
split on newlines, trim, drop empty and comment lines, normalize,
keep only valid domains, deduplicate into a set. -/
def processText (text : Str) (isAllowlist : Bool) : List Str :=
  dedupFirst
    (((((splitCh '\n' text).map trimStr).filter
          (fun l => !l.isEmpty && !isComment l)).map
        (fun l => normalizeDomain l isAllowlist)).filter
      (fun d => isValidDomain d))

/-- The body of the `try` block of `fetchDomains`: a non-ok response or
a network error throws. -/
def fetchTry (o : FetchOutcome) (isAllowlist : Bool) : Except Str (List Str) :=
  match o with
  | .success text => Except.ok (processText text isAllowlist)
  | .httpError status statusText =>
      Except.error (strL "HTTP " ++ natStr status ++ strL ": " ++ statusText)
  | .networkError msg => Except.error msg

/-- `fetchDomains`: the surrounding `catch` logs the error and returns
`new Set()` — every failure is absorbed into an empty, successful
result. -/
def fetchDomains (o : FetchOutcome) (isAllowlist : Bool) :
    Except Str (List Str) :=
  match fetchTry o isAllowlist with
  | Except.ok s => Except.ok s
  | Except.error _ => Except.ok []

/-- Claim C9, counterexample: a failing fetch (HTTP error or network
error) does not surface an error to the caller — `fetchDomains` returns
a successful empty set, so the failure is absorbed rather than
propagated and the run is not aborted. -/
theorem c9_counterexample :
    fetchDomains (FetchOutcome.httpError 500 (strL "Internal Server Error"))
        false = Except.ok [] ∧
    fetchDomains (FetchOutcome.networkError (strL "fetch failed")) true
      = Except.ok [] := by
  refine ⟨rfl, rfl⟩

/-- Claim C9 (amended): for every feed fetch failure (network error or
non-success HTTP status), `fetchDomains` catches the error and returns
a successful empty domain set; the sync run continues with that feed
contributing nothing. -/
theorem c9_failure_absorbed (o : FetchOutcome) (b : Bool)
    (h : isFetchFailure o = true) : fetchDomains o b = Except.ok [] := by
  cases o with
  | success text => simp [isFetchFailure] at h
  | httpError status statusText => rfl
  | networkError msg => rfl

theorem c9_witness :
    isFetchFailure (FetchOutcome.httpError 404 (strL "Not Found")) = true ∧
    fetchDomains (FetchOutcome.httpError 404 (strL "Not Found")) false
      = Except.ok [] :=
  ⟨by decide,
    c9_failure_absorbed (FetchOutcome.httpError 404 (strL "Not Found")) false
      (by decide)⟩

/-- The per-line fate of `fetchDomains`' pipeline: `none` when the line
is rejected by a filter stage, `some` of the normalized domain
otherwise. -/
def processLine (line : Str) (isAllowlist : Bool) : Option Str :=
  if (trimStr line).isEmpty then none
  else if isComment (trimStr line) then none
  else if isValidDomain (normalizeDomain (trimStr line) isAllowlist) then
    some (normalizeDomain (trimStr line) isAllowlist)
  else none

/-- Claim C10: `normalizeDomain` is total — it returns a plain string
for every input, never a `Rejected` value — and a line is rejected by
the pipeline exactly when the empty/comment filter or the
`isValidDomain` filter discards it, the stages outside
`normalizeDomain`. -/
theorem c10_normalize_total_stage_separation (line : Str) (b : Bool) :
    (∃ t : Str, normalizeDomain line b = t) ∧
    (processLine line b = none ↔
      (trimStr line = [] ∨ isComment (trimStr line) = true ∨
        isValidDomain (normalizeDomain (trimStr line) b) = false)) := by
  refine ⟨⟨normalizeDomain line b, rfl⟩, ?_⟩
  unfold processLine
  split_ifs with h1 h2 h3
  · simp only [List.isEmpty_iff] at h1
    simp [h1]
  · simp [h2]
  · simp only [List.isEmpty_iff] at h1
    simp [h1, h2, h3]
  · simp only [List.isEmpty_iff] at h1
    simp [h1, h2, Bool.eq_false_iff.mpr h3]

/-! ## Claim C8: the empty-result path of the orchestrator
(src/update_filter_lists.js lines 165–237) -/

/-- A remote Zero Trust rule object. -/
structure CFRule where
  id : Nat
  name : Str
deriving DecidableEq, Repr

/-- The remote gateway calls issued by `processLists` after
reconciliation, in program order. -/
inductive GatewayOp where
  | getRules
  | getLists
  | deleteRule (id : Nat)
  | deleteList (id : Nat)
  | createList (name : Str) (items : List Str)
  | upsertRule (expr : Str) (name : Str) (filters : List Str)
deriving DecidableEq, Repr

/-- The chunking of `createZeroTrustListsOneByOne` (src/lib/api.js):
successive slices of `LIST_ITEM_SIZE = 1000` items. -/
def chunkEvery : List Str → List (List Str)
  | [] => []
  | x :: xs => ((x :: xs).take 1000) :: chunkEvery ((x :: xs).drop 1000)
termination_by l => l.length
decreasing_by
  simp only [List.length_drop, List.length_cons]
  omega

/-- One `createList` call per chunk, named `"CGPS List - Chunk <n>"`
with `n` starting at 1 in creation order. -/
def createListOps (domains : List Str) : List GatewayOp :=
  (chunkEvery domains).enum.map
    (fun p =>
      GatewayOp.createList (strL "CGPS List - Chunk " ++ natStr (p.1 + 1)) p.2)

/-- The rules deleted first: names `"CGPS Filter Lists"` and
`"CGPS Filter Lists - SNI Based Filtering"`. -/
def cgpsRules (rules : List CFRule) : List CFRule :=
  rules.filter
    (fun r =>
      r.name == strL "CGPS Filter Lists" ||
      r.name == strL "CGPS Filter Lists - SNI Based Filtering")

/-- The lists deleted next: names starting with `"CGPS List"`. -/
def cgpsLists (lists : List CFListObj) : List CFListObj :=
  lists.filter (fun l => hasPrefixL (strL "CGPS List") l.name)

/-- The sequence of gateway calls issued by `processLists` after the
reconciliation loop, as a function of the reconciliation inputs and of
the remote state (`existingRules`, `existingLists` as first fetched,
`listsAfter` as re-fetched after creation). When the final block list
is empty the code logs and returns before any gateway call. -/
def orchestrateOps (A raw : List Str) (limit : Int)
    (existingRules : List CFRule) (existingLists listsAfter : List CFListObj)
    (sni : Bool) : List GatewayOp :=
  let domains := (processDomains A limit LIST_ITEM_SIZE raw).domains
  if domains.length = 0 then []
  else
    GatewayOp.getRules :: GatewayOp.getLists ::
      (((cgpsRules existingRules).map (fun r => GatewayOp.deleteRule r.id)) ++
        ((cgpsLists existingLists).map (fun l => GatewayOp.deleteList l.id)) ++
        createListOps domains ++
        [GatewayOp.getLists,
          GatewayOp.upsertRule (wirefilterDNSExpression listsAfter)
            (strL "CGPS Filter Lists") [strL "dns"]] ++
        (if sni then
          [GatewayOp.upsertRule (wirefilterSNIExpression listsAfter)
            (strL "CGPS Filter Lists - SNI Based Filtering") [strL "l4"]]
        else []))

/-- Claim C8: if reconciliation produces zero domains to block, the
orchestrator returns without issuing any gateway call: no rule
deletion, no list deletion, no list creation and no rule upsert occur
on the empty-result path, whatever the remote state holds. -/
theorem c8_empty_no_mutation (A raw : List Str) (limit : Int)
    (existingRules : List CFRule) (existingLists listsAfter : List CFListObj)
    (sni : Bool)
    (h : (processDomains A limit LIST_ITEM_SIZE raw).domains = []) :
    orchestrateOps A raw limit existingRules existingLists listsAfter sni
      = [] := by
  unfold orchestrateOps
  simp [h]

theorem c8_witness :
    (processDomains [strL "example.com"] 300000 LIST_ITEM_SIZE
        [strL "sub.example.com"]).domains = [] ∧
    orchestrateOps [strL "example.com"] [strL "sub.example.com"] 300000
        [CFRule.mk 7 (strL "CGPS Filter Lists")]
        [CFListObj.mk 3 (strL "CGPS List - Chunk 1")]
        [CFListObj.mk 4 (strL "CGPS List - Chunk 1")] true
      = [] :=
  ⟨by decide,
    c8_empty_no_mutation [strL "example.com"] [strL "sub.example.com"] 300000
      [CFRule.mk 7 (strL "CGPS Filter Lists")]
      [CFListObj.mk 3 (strL "CGPS List - Chunk 1")]
      [CFListObj.mk 4 (strL "CGPS List - Chunk 1")] true (by decide)⟩

end CGPS
